import Mathlib

/-!
# Verification of `parser` (metakeule/parser, `parser.go`)

Shallow embedding of the rune-oriented parser toolkit: a cursor over a byte
string with rune decoding, line/column tracking and single-rune backtracking,
an AST-builder stack, and a state-machine driver loop.

The source file `parser.go` contains two concatenated revisions of the
package; the definitions below follow the later revision (the one whose
declarations all line references of the analysis resolve to: `Next` with the
`err` field, `ForwardUntil`, `Errorf` storing into `p.err`, `Run` looping on
`p.err`).

Modelling conventions:
* Go strings are byte strings; `input`, emitted tokens, rune-set arguments
  and diagnostic texts are `List Nat` of byte values (rune sets are given as
  the list of code points of the set string, matching `strings.IndexRune`
  membership on valid strings).
* Go `int` fields (`start`, `pos`, `width`, `line`, `linepos`, ...) are `Int`;
  no overflow modelling is needed since values stay tiny.
* A Go slice expression that would panic (index out of range) makes the
  operation return `none`; loops (`AcceptRun`, `ForwardUntil`, `Run`) take
  fuel and return `none` when the fuel runs out, so non-termination of the
  Go loop shows up as `none` for every fuel value.
* `ASTNode` is an external interface; nodes are modelled as opaque ids
  (`Nat`).  `AddChild` mutates the external node, not the parser state, so
  it has no effect on the embedded state.
-/

namespace GoParser

/-- Go `utf8.RuneError` (U+FFFD). -/
def RuneError : Nat := 0xFFFD

/-- Decode the first rune of a byte string, as Go's
`utf8.DecodeRuneInString`: returns the code point and its byte width;
`(RuneError, 0)` on the empty string, `(RuneError, 1)` on any invalid
encoding (bad leading byte, bad continuation byte, overlong form, surrogate,
out-of-range, or truncated sequence). -/
def decodeRune : List Nat → Nat × Nat
  | [] => (RuneError, 0)
  | b0 :: rest =>
    if b0 < 0x80 then (b0, 1)
    else if b0 < 0xC2 then (RuneError, 1)
    else if b0 < 0xE0 then
      match rest with
      | b1 :: _ =>
        if 0x80 ≤ b1 ∧ b1 < 0xC0 then (b0 % 0x20 * 64 + b1 % 64, 2)
        else (RuneError, 1)
      | [] => (RuneError, 1)
    else if b0 < 0xF0 then
      match rest with
      | b1 :: b2 :: _ =>
        if (if b0 = 0xE0 then 0xA0 else 0x80) ≤ b1 ∧
            b1 < (if b0 = 0xED then 0xA0 else 0xC0) ∧
            0x80 ≤ b2 ∧ b2 < 0xC0 then
          (b0 % 0x10 * 4096 + b1 % 64 * 64 + b2 % 64, 3)
        else (RuneError, 1)
      | _ => (RuneError, 1)
    else if b0 < 0xF5 then
      match rest with
      | b1 :: b2 :: b3 :: _ =>
        if (if b0 = 0xF0 then 0x90 else 0x80) ≤ b1 ∧
            b1 < (if b0 = 0xF4 then 0x90 else 0xC0) ∧
            0x80 ≤ b2 ∧ b2 < 0xC0 ∧ 0x80 ≤ b3 ∧ b3 < 0xC0 then
          (b0 % 8 * 262144 + b1 % 64 * 4096 + b2 % 64 * 64 + b3 % 64, 4)
        else (RuneError, 1)
      | _ => (RuneError, 1)
    else (RuneError, 1)

/-- `var EOF = rune('∎')` — the end-of-input sentinel rune U+220E. -/
def EOF : Nat := 0x220E

/-- The two terminal conditions stored in the parser's `err` field:
`var ErrEOF = errors.New("End of File")` and the diagnostics produced by
`Errorf` (carrying their rendered byte text). -/
inductive PError where
  | eof : PError
  | msg (text : List Nat) : PError
deriving DecidableEq, Repr

/-- The `Parser` struct (second revision): builder stack, input, token
bounds, last rune width, line/column bookkeeping and terminal condition. -/
structure Parser where
  astQueue : List Nat
  input : List Nat
  start : Int
  pos : Int
  width : Int
  line : Int
  linepos : Int
  linePrev : Int
  lineposPrev : Int
  err : Option PError
deriving DecidableEq, Repr

/-- `New(input, root)`: fresh parser, builder stack seeded with the root. -/
def New (input : List Nat) (root : Nat) : Parser :=
  { astQueue := [root], input := input, start := 0, pos := 0, width := 0,
    line := 0, linepos := 0, linePrev := 0, lineposPrev := 0, err := none }

/-- Go slice `input[pos:]`: panics (here `none`) unless `0 ≤ pos ≤ len`. -/
def sliceFrom (input : List Nat) (pos : Int) : Option (List Nat) :=
  if 0 ≤ pos ∧ pos ≤ (input.length : Int) then some (input.drop pos.toNat)
  else none

/-- `Next()`: at or past the end of input, set `width := 0`, record `ErrEOF`
and return the sentinel; otherwise decode the rune at `pos`, advance `pos`
by its width, snapshot `line`/`linepos` into the `Prev` fields and update
them (newline: `line++`, `linepos := 0`; otherwise `linepos++`). -/
def Next (p : Parser) : Option (Nat × Parser) :=
  if (p.input.length : Int) ≤ p.pos then
    some (EOF, { p with width := 0, err := some .eof })
  else
    match sliceFrom p.input p.pos with
    | none => none
    | some s =>
      let r := (decodeRune s).1
      let w := (decodeRune s).2
      let p1 := { p with pos := p.pos + (w : Int), width := (w : Int),
                         linePrev := p.line, lineposPrev := p.linepos }
      if r = 10 then some (r, { p1 with line := p.line + 1, linepos := 0 })
      else some (r, { p1 with linepos := p.linepos + 1 })

/-- `Backup()`: decrement `line` if the rune decoded **at the current
`pos`** is a newline, restore `linepos` from `lineposPrev`, and move `pos`
back by `width`. -/
def Backup (p : Parser) : Option Parser :=
  match sliceFrom p.input p.pos with
  | none => none
  | some s =>
    let r := (decodeRune s).1
    let p1 := if r = 10 then { p with line := p.line - 1 } else p
    some { p1 with linepos := p.lineposPrev, pos := p.pos - p.width }

/-- `Peek()`: `Next` immediately followed by `Backup`. -/
def Peek (p : Parser) : Option (Nat × Parser) :=
  match Next p with
  | none => none
  | some (r, p1) =>
    match Backup p1 with
    | none => none
    | some p2 => some (r, p2)

/-- `Accept(valid)`: read one rune; keep it and return `true` if it is in
`valid`, otherwise `Backup` and return `false`. -/
def Accept (valid : List Nat) (p : Parser) : Option (Bool × Parser) :=
  match Next p with
  | none => none
  | some (r, p1) =>
    if valid.contains r then some (true, p1)
    else
      match Backup p1 with
      | none => none
      | some p2 => some (false, p2)

/-- `AcceptRun(valid)`: read runes while they are in `valid`, then `Backup`
over the first non-member.  Fuelled: `none` when the fuel runs out. -/
def AcceptRunAux (valid : List Nat) : Nat → Parser → Option Parser
  | 0, _ => none
  | fuel + 1, p =>
    match Next p with
    | none => none
    | some (r, p1) =>
      if valid.contains r then AcceptRunAux valid fuel p1
      else Backup p1

/-- `ForwardUntil(stopper)`: read runes while they are **not** in `stopper`,
then `Backup` over the stopping rune.  Fuelled: `none` when the fuel runs
out (the Go loop has no end-of-input exit of its own). -/
def ForwardUntilAux (stopper : List Nat) : Nat → Parser → Option Parser
  | 0, _ => none
  | fuel + 1, p =>
    match Next p with
    | none => none
    | some (r, p1) =>
      if stopper.contains r then Backup p1
      else ForwardUntilAux stopper fuel p1

/-- `Emit()`: return `input[start:pos]` and move `start` to `pos`.  The Go
slice panics unless `0 ≤ start ≤ pos ≤ len`. -/
def Emit (p : Parser) : Option (List Nat × Parser) :=
  if 0 ≤ p.start ∧ p.start ≤ p.pos ∧ p.pos ≤ (p.input.length : Int) then
    some ((p.input.take p.pos.toNat).drop p.start.toNat, { p with start := p.pos })
  else none

/-- `Ignore()`: move `start` to `pos` without returning anything. -/
def Ignore (p : Parser) : Parser :=
  { p with start := p.pos }

/-- `Root()`: bottom of the builder stack (`astQueue[0]`; `none` = panic on
an empty stack). -/
def Root (p : Parser) : Option Nat :=
  p.astQueue.head?

/-- `QueueLen()`: length of the builder stack. -/
def QueueLen (p : Parser) : Nat :=
  p.astQueue.length

/-- `AddNode(n)`: attach `n` to the current node (external side effect on
the node, invisible in this state) and push it on the builder stack. -/
def AddNode (p : Parser) (n : Nat) : Parser :=
  { p with astQueue := p.astQueue ++ [n] }

/-- `PopNode()`: drop the top of the builder stack unless that would leave
fewer than one element. -/
def PopNode (p : Parser) : Parser :=
  if p.astQueue.length < 2 then p
  else { p with astQueue := p.astQueue.dropLast }

/-- ASCII byte values of a (pure-ASCII) Lean string literal, used to write
Go string literals as byte lists. -/
def strB (s : String) : List Nat :=
  s.data.map Char.toNat

/-- Decimal byte rendering of an integer, as Go's `%d`. -/
def intB (i : Int) : List Nat :=
  strB (toString i)

/-- `Errorf` with the already-`Sprintf`-formatted message: clamp
`[pos-5, pos+5]` to the input bounds and store the rendered diagnostic
`"Error in line L at position C: <message>\ncontext:\n<window>\n"`
(1-based `L`, `C`) into `p.err`. -/
def Errorf (p : Parser) (message : List Nat) : Parser :=
  let s := if p.pos - 5 < 0 then 0 else p.pos - 5
  let e := if (p.input.length : Int) < p.pos + 5 then (p.input.length : Int)
           else p.pos + 5
  { p with err := some (.msg
      (strB "Error in line " ++ intB (p.line + 1) ++
       strB " at position " ++ intB (p.linepos + 1) ++
       strB ": " ++ message ++ strB "\ncontext:\n" ++
       (p.input.take e.toNat).drop s.toNat ++ strB "\n")) }

/-- The value `Run` hands back once its loop has stopped: `nil` when the
recorded condition is `ErrEOF`, otherwise the function's named return
variable `err` — which no statement of `Run` ever assigns, so it still
holds its zero value `nil`. -/
def RunFinish (p : Parser) : Option PError × Parser :=
  let err : Option PError := none
  (if p.err = some .eof then none else err, p)

/-- `Run(fn)`: drive a state machine.  A machine is a transition function
from state ids: `step sid p` returns the next state id (`none` = the Go
`nil` state) and the updated parser.  The loop runs while `p.err == nil`
and the returned state is non-`nil`; fuelled, `none` when fuel runs out. -/
def RunAux (step : Nat → Parser → Option Nat × Parser) :
    Nat → Nat → Parser → Option (Option PError × Parser)
  | 0, _, _ => none
  | fuel + 1, sid, p =>
    if p.err = none then
      match step sid p with
      | (none, p1) => some (RunFinish p1)
      | (some sid1, p1) => RunAux step fuel sid1 p1
    else some (RunFinish p)

/-- The public cursor operations, as an alphabet of events applied to a
parser (compound operations like `Peek` count as one event; their internal
reads and backups are part of the event). -/
inductive Op where
  | next : Op
  | backup : Op
  | peek : Op
  | accept (valid : List Nat) : Op
  | acceptRun (valid : List Nat) : Op
  | forwardUntil (stopper : List Nat) : Op
  | emit : Op
  | ignore : Op

/-- Apply one public cursor operation (loops fuelled by `fuel`). -/
def applyOp (fuel : Nat) (p : Parser) : Op → Option Parser
  | .next => (Next p).map Prod.snd
  | .backup => Backup p
  | .peek => (Peek p).map Prod.snd
  | .accept valid => (Accept valid p).map Prod.snd
  | .acceptRun valid => AcceptRunAux valid fuel p
  | .forwardUntil stopper => ForwardUntilAux stopper fuel p
  | .emit => (Emit p).map Prod.snd
  | .ignore => some (Ignore p)

/-- Apply a sequence of public cursor operations. -/
def applyOps (fuel : Nat) : List Op → Parser → Option Parser
  | [], p => some p
  | o :: os, p =>
    match applyOp fuel p o with
    | none => none
    | some p1 => applyOps fuel os p1

/-- Iterated `Next`, discarding the returned runes. -/
def iterNext : Nat → Parser → Option Parser
  | 0, p => some p
  | n + 1, p =>
    match Next p with
    | none => none
    | some (_, p1) => iterNext n p1

/-- A builder-stack operation: `AddNode` with some node, or `PopNode`. -/
inductive BOp where
  | add (n : Nat) : BOp
  | pop : BOp

/-- Apply a sequence of builder-stack operations. -/
def applyB : List BOp → Parser → Parser
  | [], p => p
  | .add n :: os, p => applyB os (AddNode p n)
  | .pop :: os, p => applyB os (PopNode p)

/-- The cursor invariant of the spec: `start` and `pos` stay inside the
input, with `start` at or before `pos`. -/
def Inv (p : Parser) : Prop :=
  0 ≤ p.start ∧ p.start ≤ p.pos ∧ p.pos ≤ (p.input.length : Int)

/-- The public cursor operations with `Backup` used as documented: only
immediately after a `Next` (`nextBackup`); the compound operations `Peek`,
`Accept`, `AcceptRun`, `ForwardUntil` already use it that way internally. -/
inductive WOp where
  | next : WOp
  | nextBackup : WOp
  | peek : WOp
  | accept (valid : List Nat) : WOp
  | acceptRun (valid : List Nat) : WOp
  | forwardUntil (stopper : List Nat) : WOp
  | emit : WOp
  | ignore : WOp

/-- Apply one operation of the restricted alphabet. -/
def applyW (fuel : Nat) (p : Parser) : WOp → Option Parser
  | .next =>
    match Next p with
    | none => none
    | some (_, p1) => some p1
  | .nextBackup =>
    match Next p with
    | none => none
    | some (_, p1) => Backup p1
  | .peek =>
    match Peek p with
    | none => none
    | some (_, p1) => some p1
  | .accept valid =>
    match Accept valid p with
    | none => none
    | some (_, p1) => some p1
  | .acceptRun valid => AcceptRunAux valid fuel p
  | .forwardUntil stopper => ForwardUntilAux stopper fuel p
  | .emit =>
    match Emit p with
    | none => none
    | some (_, p1) => some p1
  | .ignore => some (Ignore p)

/-- Apply a sequence of operations of the restricted alphabet. -/
def applyWs (fuel : Nat) : List WOp → Parser → Option Parser
  | [], p => some p
  | o :: os, p =>
    match applyW fuel p o with
    | none => none
    | some p1 => applyWs fuel os p1

/-- The cursor state reached from `New "ab"` by: read `'a'`, emit it, read
`'b'` and back up, accept `'b'`, ignore. -/
def wSeqEnd : Parser :=
  { New [97, 98] 0 with
      start := 2, pos := 2, width := 1, linepos := 2, lineposPrev := 1 }

end GoParser

namespace GoParser


/-- `Next` at or past the end of input: sentinel rune, `width := 0`,
`err := ErrEOF`, everything else (in particular `pos`) untouched. -/
lemma next_of_end (p : Parser) (h : (p.input.length : Int) ≤ p.pos) :
    Next p = some (EOF, { p with width := 0, err := some .eof }) := by
  unfold Next
  rw [if_pos h]

/-- C1: the Go `Run` declares a named return value `err` and never assigns
it, so after the loop stops on a recorded diagnostic, `return err` yields
`nil` — the diagnostic recorded by `Errorf` is **not** returned to the
caller.  Here a state machine whose single state records the diagnostic
`"boom"` and stops: `Run` returns `nil` (`none`) although the cursor holds
a non-`ErrEOF` diagnostic. -/
theorem run_swallows_diagnostic :
    RunAux (fun _ p => (none, Errorf p (strB "boom"))) 2 0 (New [120] 0) =
      some (none, Errorf (New [120] 0) (strB "boom")) ∧
    (Errorf (New [120] 0) (strB "boom")).err ≠ none ∧
    (Errorf (New [120] 0) (strB "boom")).err ≠ some .eof := by
  refine ⟨rfl, by decide, by decide⟩

/-- C3: `Peek` on the fresh cursor over `"a\n"` returns `'a'` but leaves
`line = -1` instead of the pre-call `0`: `Backup` decides the `line`
decrement by decoding the rune at the post-read `pos` (here the `'\n'` that
was *not* read) instead of the rune it undoes. -/
theorem peek_changes_line :
    (New [97, 10] 0).line = 0 ∧
    Peek (New [97, 10] 0) =
      some (97, { New [97, 10] 0 with width := 1, line := -1 }) := by
  exact ⟨rfl, rfl⟩

/-- C4: `Accept "x"` on the fresh cursor over `"a\n"` returns `false` but
changes `line` from `0` to `-1` (same `Backup` defect as for `Peek`):
the claimed frame condition on `line` fails. -/
theorem accept_false_changes_line :
    (New [97, 10] 0).line = 0 ∧
    Accept [120] (New [97, 10] 0) =
      some (false, { New [97, 10] 0 with width := 1, line := -1 }) := by
  exact ⟨rfl, rfl⟩

/-- C9 counterexample: the sentinel rune `'∎'` (U+220E) is an ordinary
Unicode code point; on the input consisting of its UTF-8 encoding
`E2 88 8E`, `Next` at `pos = 0 < len = 3` returns exactly the sentinel
value, decoded from real input bytes (and records no terminal condition). -/
theorem sentinel_decoded_from_input :
    Next (New [226, 136, 142] 0) =
      some (EOF, { New [226, 136, 142] 0 with pos := 3, width := 3, linepos := 1 }) ∧
    (New [226, 136, 142] 0).pos < ((New [226, 136, 142] 0).input.length : Int) := by
  exact ⟨rfl, by decide⟩

/-- C5: `Errorf` renders exactly
`"Error in line L at position C: <message>\ncontext:\n<window>\n"` with
1-based `L`, `C` and the window `input[max 0 (pos-5) : min (pos+5) len]`;
in particular, on `"hello world"` at `pos = 6` (line 0, column 6),
`Errorf "unexpected token"` records
`"Error in line 1 at position 7: unexpected token\ncontext:\nello world\n"`,
whose window is `input[1:11]`. -/
theorem errorf_format :
    (∀ (p : Parser) (message : List Nat),
      Errorf p message = { p with err := some (.msg
        (strB "Error in line " ++ intB (p.line + 1) ++
         strB " at position " ++ intB (p.linepos + 1) ++
         strB ": " ++ message ++ strB "\ncontext:\n" ++
         ((p.input.take (min (p.pos + 5) (p.input.length : Int)).toNat).drop
           (max 0 (p.pos - 5)).toNat) ++ strB "\n")) }) ∧
    Errorf { New (strB "hello world") 0 with pos := 6, linepos := 6 }
        (strB "unexpected token") =
      { New (strB "hello world") 0 with
          pos := 6, linepos := 6,
          err := some (.msg (strB
            "Error in line 1 at position 7: unexpected token\ncontext:\nello world\n")) } ∧
    ((strB "hello world").take 11).drop 1 = strB "ello world" := by
  refine ⟨?_, rfl, rfl⟩
  intro p message
  have h1 : (if p.pos - 5 < 0 then 0 else p.pos - 5) = max 0 (p.pos - 5) := by
    split <;> omega
  have h2 : (if (p.input.length : Int) < p.pos + 5 then (p.input.length : Int)
      else p.pos + 5) = min (p.pos + 5) (p.input.length : Int) := by
    split <;> omega
  simp only [Errorf, h1, h2]

/-- C2: `ForwardUntil` has no end-of-input exit: from any cursor at or past
the end of input, if the stop set does not contain the sentinel rune, the
loop re-reads the sentinel forever (`none` for every fuel). -/
theorem forwardUntil_diverges_at_end (p : Parser) (stopper : List Nat)
    (hpos : (p.input.length : Int) ≤ p.pos)
    (hstop : stopper.contains EOF = false) :
    ∀ fuel, ForwardUntilAux stopper fuel p = none := by
  have hq : Next { p with width := 0, err := some .eof } =
      some (EOF, { p with width := 0, err := some .eof }) :=
    next_of_end _ hpos
  have aux : ∀ fuel,
      ForwardUntilAux stopper fuel { p with width := 0, err := some .eof } = none := by
    intro fuel
    induction fuel with
    | zero => rfl
    | succ n ih =>
      unfold ForwardUntilAux
      rw [hq]
      simp only [hstop, Bool.false_eq_true, if_false]
      exact ih
  intro fuel
  cases fuel with
  | zero => rfl
  | succ n =>
    unfold ForwardUntilAux
    rw [next_of_end p hpos]
    simp only [hstop, Bool.false_eq_true, if_false]
    exact aux n

/-- Witness for `forwardUntil_diverges_at_end`: the fresh cursor over the
empty input with stop set `"x"` — three units of fuel are not enough, nor
is any amount. -/
theorem forwardUntil_diverges_at_end_witness :
    ForwardUntilAux [120] 3 (New [] 0) = none :=
  forwardUntil_diverges_at_end (New [] 0) [120] (by decide) (by decide) 3

/-- C7: from any cursor at or past the end of input, `Next` returns the
sentinel, records the end-of-input condition (`ErrEOF`, not a diagnostic),
sets `width := 0` and touches nothing else — `pos` unchanged; iterating
`Next` any number of times reaches the same state, so `pos` never exceeds
`len(input)` and no input byte is ever accessed. -/
theorem next_at_end_fixed (p : Parser) (h : (p.input.length : Int) ≤ p.pos) :
    Next p = some (EOF, { p with width := 0, err := some .eof }) ∧
    ({ p with width := 0, err := some .eof } : Parser).pos = p.pos ∧
    ∀ n, iterNext (n + 1) p = some { p with width := 0, err := some .eof } := by
  refine ⟨next_of_end p h, rfl, ?_⟩
  have hq : Next { p with width := 0, err := some .eof } =
      some (EOF, { p with width := 0, err := some .eof }) :=
    next_of_end _ h
  have aux : ∀ n,
      iterNext n { p with width := 0, err := some .eof } =
        some { p with width := 0, err := some .eof } := by
    intro n
    induction n with
    | zero => rfl
    | succ m ih =>
      unfold iterNext
      rw [hq]
      exact ih
  intro n
  unfold iterNext
  rw [next_of_end p h]
  exact aux n

/-- Witness for `next_at_end_fixed`: the cursor over `"ab"` with both bytes
consumed (`pos = 2 = len`). -/
theorem next_at_end_fixed_witness :
    Next { New [97, 98] 0 with pos := 2 } =
      some (EOF, { New [97, 98] 0 with pos := 2, err := some .eof }) ∧
    iterNext 3 { New [97, 98] 0 with pos := 2 } =
      some { New [97, 98] 0 with pos := 2, err := some .eof } := by
  have h := next_at_end_fixed { New [97, 98] 0 with pos := 2 } (by decide)
  exact ⟨h.1, h.2.2 2⟩

/-- C10: after a `Next` performed at or past the end of input (which sets
`width := 0`), a following `Backup`, whenever it completes, leaves `pos`
exactly where it was before the `Next`. -/
theorem backup_after_end_read (p : Parser) (h : (p.input.length : Int) ≤ p.pos) :
    ∃ p1, Next p = some (EOF, p1) ∧ p1.pos = p.pos ∧
      ∀ p2, Backup p1 = some p2 → p2.pos = p.pos := by
  refine ⟨{ p with width := 0, err := some .eof }, next_of_end p h, rfl, ?_⟩
  intro p2 hb
  unfold Backup at hb
  cases hs : sliceFrom p.input p.pos with
  | none => rw [hs] at hb; exact absurd hb (by simp)
  | some s =>
    rw [hs] at hb
    simp only [Option.some.injEq] at hb
    subst hb
    by_cases hr : (decodeRune s).1 = 10 <;> simp [hr]

/-- Witness for `backup_after_end_read`: empty input, fresh cursor
(`pos = 0 = len`); here `Backup` does complete and keeps `pos = 0`. -/
theorem backup_after_end_read_witness :
    ∃ p1, Next (New [] 0) = some (EOF, p1) ∧ p1.pos = (New [] 0).pos ∧
      ∀ p2, Backup p1 = some p2 → p2.pos = (New [] 0).pos :=
  backup_after_end_read (New [] 0) (by decide)

/-- `AddNode` and `PopNode` both preserve the bottom of a non-empty
builder stack. -/
lemma applyB_head (ops : List BOp) :
    ∀ (p : Parser) (r : Nat), p.astQueue.head? = some r →
      (applyB ops p).astQueue.head? = some r := by
  induction ops with
  | nil => intro p r h; exact h
  | cons o os ih =>
    intro p r h
    cases o with
    | add n =>
      refine ih _ r ?_
      simp only [AddNode]
      cases hq : p.astQueue with
      | nil => rw [hq] at h; exact absurd h (by simp)
      | cons a t => rw [hq] at h; simpa using h
    | pop =>
      refine ih _ r ?_
      simp only [PopNode]
      split
      · exact h
      · next hlen =>
        cases hq : p.astQueue with
        | nil => rw [hq] at h; exact absurd h (by simp)
        | cons a t =>
          rw [hq] at h
          simp only [List.head?_cons, Option.some.injEq] at h
          subst h
          rw [hq] at hlen
          cases t with
          | nil => simp at hlen
          | cons b t' => simp [List.dropLast]

/-- C8: for every parser built by `New` with root `r` and every sequence of
`AddNode`/`PopNode` calls, the builder stack stays non-empty with `r` at
its bottom (`Root` returns `r`); and `PopNode` on a stack of exactly one
element is a no-op, leaving the depth at `1`. -/
theorem builder_stack_root (ops : List BOp) (input : List Nat) (r : Nat) :
    (applyB ops (New input r)).astQueue ≠ [] ∧
    Root (applyB ops (New input r)) = some r ∧
    ∀ p : Parser, QueueLen p = 1 → PopNode p = p ∧ QueueLen (PopNode p) = 1 := by
  have hhead : (applyB ops (New input r)).astQueue.head? = some r :=
    applyB_head ops (New input r) r rfl
  refine ⟨?_, hhead, ?_⟩
  · intro hnil
    rw [hnil] at hhead
    exact absurd hhead (by simp)
  · intro p hlen
    have hpop : PopNode p = p := by
      unfold PopNode
      rw [if_pos (by unfold QueueLen at hlen; omega)]
    exact ⟨hpop, by rw [hpop]; exact hlen⟩

/-- Witness for `builder_stack_root`: push two nodes, pop three times; the
root `7` survives at the bottom, and popping the depth-1 stack `[7]` is a
no-op. -/
theorem builder_stack_root_witness :
    (applyB [.add 1, .add 2, .pop, .pop, .pop] (New [] 7)).astQueue ≠ [] ∧
    Root (applyB [.add 1, .add 2, .pop, .pop, .pop] (New [] 7)) = some 7 ∧
    PopNode (New [] 7) = New [] 7 ∧ QueueLen (PopNode (New [] 7)) = 1 := by
  have h := builder_stack_root [.add 1, .add 2, .pop, .pop, .pop] [] 7
  exact ⟨h.1, h.2.1, h.2.2 (New [] 7) rfl⟩

/-- C6 counterexample: `Next; Emit; Backup` on `"ab"` — each operation a
public cursor operation, `Backup` used once per `Next` — leaves
`start = 1 > pos = 0`, violating `start ≤ pos ≤ len`. -/
theorem invariant_broken_by_emit_backup :
    applyOps 1 [.next, .emit, .backup] (New [97, 98] 0) =
      some { New [97, 98] 0 with start := 1, pos := 0, width := 1 } ∧
    ¬ ((1 : Int) ≤ (0 : Int)) := by
  exact ⟨rfl, by decide⟩

/-- The decoded width never exceeds the length of the byte string (a
multi-byte width is only returned when the continuation bytes are there). -/
lemma decode_width_le : ∀ s : List Nat, (decodeRune s).2 ≤ s.length := by
  intro s
  match s with
  | [] => simp [decodeRune]
  | [b0] =>
    simp only [decodeRune]
    split_ifs <;> simp
  | [b0, b1] =>
    simp only [decodeRune]
    split_ifs <;> simp
  | [b0, b1, b2] =>
    simp only [decodeRune]
    split_ifs <;> simp
  | b0 :: b1 :: b2 :: b3 :: rest =>
    simp only [decodeRune]
    split_ifs <;> simp

/-- `Next` from a position inside the input always completes; it keeps
`start` and `input`, moves `pos` forward but not beyond the end, and
records in `width` exactly how far it moved. -/
lemma next_spec (p : Parser) (h0 : 0 ≤ p.pos) (h1 : p.pos ≤ (p.input.length : Int)) :
    ∃ r p1, Next p = some (r, p1) ∧ p1.start = p.start ∧ p1.input = p.input ∧
      p.pos ≤ p1.pos ∧ p1.pos ≤ (p1.input.length : Int) ∧ p1.pos - p1.width = p.pos := by
  by_cases hend : (p.input.length : Int) ≤ p.pos
  · refine ⟨EOF, _, next_of_end p hend, rfl, rfl, le_refl _, h1, by simp⟩
  · have hslice : sliceFrom p.input p.pos = some (p.input.drop p.pos.toNat) := by
      unfold sliceFrom
      rw [if_pos ⟨h0, h1⟩]
    have hw : (decodeRune (p.input.drop p.pos.toNat)).2 ≤
        (p.input.drop p.pos.toNat).length := decode_width_le _
    have hlen : (p.input.drop p.pos.toNat).length = p.input.length - p.pos.toNat := by
      simp
    simp only [Next, hslice]
    rw [if_neg hend]
    split_ifs with hr <;>
      refine ⟨_, _, rfl, rfl, rfl, ?_, ?_, ?_⟩ <;> dsimp only <;> omega

/-- `Backup` from a position inside the input always completes; it keeps
`start` and `input` and moves `pos` back by `width`. -/
lemma backup_spec (p : Parser) (h0 : 0 ≤ p.pos) (h1 : p.pos ≤ (p.input.length : Int)) :
    ∃ p2, Backup p = some p2 ∧ p2.pos = p.pos - p.width ∧ p2.start = p.start ∧
      p2.input = p.input := by
  have hslice : sliceFrom p.input p.pos = some (p.input.drop p.pos.toNat) := by
    unfold sliceFrom
    rw [if_pos ⟨h0, h1⟩]
  simp only [Backup, hslice]
  by_cases hr : (decodeRune (p.input.drop p.pos.toNat)).1 = 10 <;>
    simp only [hr, if_true, if_false, reduceIte] <;>
    exact ⟨_, rfl, rfl, rfl, rfl⟩

/-- `Next` preserves the cursor invariant. -/
lemma next_inv (p : Parser) (hp : Inv p) :
    ∀ r p1, Next p = some (r, p1) → Inv p1 := by
  obtain ⟨h0, h1, h2⟩ := hp
  obtain ⟨r0, p0, hn, hst, hin, hle, hhi, _⟩ :=
    next_spec p (le_trans h0 h1) h2
  intro r p1 h
  rw [hn] at h
  cases h
  exact ⟨hst ▸ h0, le_trans (hst ▸ h1) hle, hhi⟩

/-- `Next` immediately followed by `Backup` restores `pos` (and keeps
`start` and `input`), hence preserves the cursor invariant. -/
lemma next_backup_spec (p : Parser) (hp : Inv p) :
    ∃ r p1 p2, Next p = some (r, p1) ∧ Backup p1 = some p2 ∧
      p2.pos = p.pos ∧ p2.start = p.start ∧ p2.input = p.input ∧ Inv p2 := by
  obtain ⟨h0, h1, h2⟩ := hp
  obtain ⟨r0, p1, hn, hst, hin, hle, hhi, hwidth⟩ :=
    next_spec p (le_trans h0 h1) h2
  obtain ⟨p2, hb, hpos, hst2, hin2⟩ :=
    backup_spec p1 (le_trans (le_trans h0 (hst ▸ h1)) hle) hhi
  refine ⟨r0, p1, p2, hn, hb, ?_, hst2.trans hst, hin2.trans hin, ?_⟩
  · rw [hpos, hwidth]
  · refine ⟨?_, ?_, ?_⟩
    · rw [hst2, hst]; exact h0
    · rw [hst2, hst, hpos, hwidth]; exact h1
    · rw [hpos, hwidth, hin2, hin]; exact h2

/-- `Peek` preserves the cursor invariant. -/
lemma peek_inv (p : Parser) (hp : Inv p) :
    ∀ r p2, Peek p = some (r, p2) → Inv p2 := by
  obtain ⟨r0, p1, p2, hn, hb, _, _, _, hinv⟩ := next_backup_spec p hp
  intro r q h
  simp only [Peek, hn, hb, Option.some.injEq, Prod.mk.injEq] at h
  exact h.2 ▸ hinv

/-- `Accept` preserves the cursor invariant on both outcomes. -/
lemma accept_inv (valid : List Nat) (p : Parser) (hp : Inv p) :
    ∀ b p2, Accept valid p = some (b, p2) → Inv p2 := by
  obtain ⟨r0, p1, p2, hn, hb, _, _, _, hinv⟩ := next_backup_spec p hp
  intro b q h
  simp only [Accept, hn] at h
  by_cases hc : valid.contains r0 = true <;>
    simp only [hc, Bool.false_eq_true, if_true, if_false, reduceIte, hb,
      Option.some.injEq, Prod.mk.injEq] at h
  · exact h.2 ▸ next_inv p hp r0 p1 hn
  · exact h.2 ▸ hinv

/-- `AcceptRunAux` preserves the cursor invariant whenever it completes. -/
lemma acceptRun_inv (valid : List Nat) :
    ∀ (fuel : Nat) (p : Parser), Inv p →
      ∀ p', AcceptRunAux valid fuel p = some p' → Inv p' := by
  intro fuel
  induction fuel with
  | zero => intro p _ p' h; exact absurd h (by simp [AcceptRunAux])
  | succ n ih =>
    intro p hp p' h
    obtain ⟨r0, p1, p2, hn, hb, _, _, _, hinv⟩ := next_backup_spec p hp
    unfold AcceptRunAux at h
    simp only [hn] at h
    by_cases hc : valid.contains r0 = true <;>
      simp only [hc, Bool.false_eq_true, if_true, if_false, reduceIte] at h
    · exact ih p1 (next_inv p hp r0 p1 hn) p' h
    · rw [hb] at h
      cases h
      exact hinv

/-- `ForwardUntilAux` preserves the cursor invariant whenever it
completes. -/
lemma forwardUntil_inv (stopper : List Nat) :
    ∀ (fuel : Nat) (p : Parser), Inv p →
      ∀ p', ForwardUntilAux stopper fuel p = some p' → Inv p' := by
  intro fuel
  induction fuel with
  | zero => intro p _ p' h; exact absurd h (by simp [ForwardUntilAux])
  | succ n ih =>
    intro p hp p' h
    obtain ⟨r0, p1, p2, hn, hb, _, _, _, hinv⟩ := next_backup_spec p hp
    unfold ForwardUntilAux at h
    simp only [hn] at h
    by_cases hc : stopper.contains r0 = true <;>
      simp only [hc, Bool.false_eq_true, if_true, if_false, reduceIte] at h
    · rw [hb] at h
      cases h
      exact hinv
    · exact ih p1 (next_inv p hp r0 p1 hn) p' h

/-- `Emit` establishes the cursor invariant whenever it completes (its
slice guard is exactly the invariant, and it moves `start` up to `pos`). -/
lemma emit_inv (p : Parser) :
    ∀ t p2, Emit p = some (t, p2) → Inv p2 := by
  intro t p2 h
  unfold Emit at h
  split_ifs at h with hg
  cases h
  exact ⟨le_trans hg.1 hg.2.1, le_refl _, hg.2.2⟩

/-- `Ignore` preserves the cursor invariant. -/
lemma ignore_inv (p : Parser) (hp : Inv p) : Inv (Ignore p) :=
  ⟨le_trans hp.1 hp.2.1, le_refl _, hp.2.2⟩

/-- Every operation of the restricted alphabet preserves the cursor
invariant. -/
lemma applyW_inv (fuel : Nat) (p : Parser) (hp : Inv p) (o : WOp) :
    ∀ p1, applyW fuel p o = some p1 → Inv p1 := by
  intro p1 h
  cases o with
  | next =>
    simp only [applyW] at h
    cases hn : Next p with
    | none => rw [hn] at h; exact absurd h (by simp)
    | some rq =>
      rw [hn] at h
      cases h
      exact next_inv p hp rq.1 rq.2 (by rw [hn])
  | nextBackup =>
    obtain ⟨r0, q1, q2, hn, hb, _, _, _, hinv⟩ := next_backup_spec p hp
    simp only [applyW, hn, hb, Option.some.injEq] at h
    exact h ▸ hinv
  | peek =>
    simp only [applyW] at h
    cases hn : Peek p with
    | none => rw [hn] at h; exact absurd h (by simp)
    | some rq =>
      rw [hn] at h
      cases h
      exact peek_inv p hp rq.1 rq.2 (by rw [hn])
  | accept valid =>
    simp only [applyW] at h
    cases hn : Accept valid p with
    | none => rw [hn] at h; exact absurd h (by simp)
    | some rq =>
      rw [hn] at h
      cases h
      exact accept_inv valid p hp rq.1 rq.2 (by rw [hn])
  | acceptRun valid =>
    exact acceptRun_inv valid fuel p hp p1 h
  | forwardUntil stopper =>
    exact forwardUntil_inv stopper fuel p hp p1 h
  | emit =>
    simp only [applyW] at h
    cases hn : Emit p with
    | none => rw [hn] at h; exact absurd h (by simp)
    | some rq =>
      rw [hn] at h
      cases h
      exact emit_inv p rq.1 rq.2 (by rw [hn])
  | ignore =>
    simp only [applyW, Option.some.injEq] at h
    exact h ▸ ignore_inv p hp

/-- A sequence of operations of the restricted alphabet preserves the
cursor invariant. -/
lemma applyWs_inv (fuel : Nat) :
    ∀ (ops : List WOp) (p : Parser), Inv p →
      ∀ p', applyWs fuel ops p = some p' → Inv p' := by
  intro ops
  induction ops with
  | nil =>
    intro p hp p' h
    simp only [applyWs, Option.some.injEq] at h
    exact h ▸ hp
  | cons o os ih =>
    intro p hp p' h
    unfold applyWs at h
    cases ha : applyW fuel p o with
    | none => rw [ha] at h; exact absurd h (by simp)
    | some p1 =>
      rw [ha] at h
      exact ih p1 (applyW_inv fuel p hp o p1 ha) p' h

/-- C6 (amended): starting from `New`, the invariant
`start ≤ pos ≤ len(input)` holds after every sequence of public cursor
operations in which each `Backup` immediately follows a `Next` — the
documented "once per call of `Next`" contract; the compound operations use
`Backup` only that way internally. -/
theorem start_pos_invariant (ops : List WOp) (fuel : Nat) (input : List Nat)
    (root : Nat) (p' : Parser)
    (h : applyWs fuel ops (New input root) = some p') :
    p'.start ≤ p'.pos ∧ p'.pos ≤ (p'.input.length : Int) := by
  have hinv : Inv p' :=
    applyWs_inv fuel ops (New input root) ⟨le_refl 0, le_refl 0, by simp [New]⟩ p' h
  exact ⟨hinv.2.1, hinv.2.2⟩


/-- Witness for `start_pos_invariant`: read `'a'`, emit it, peek at `'b'`
via read-then-backup, accept `'b'`, ignore — the final cursor satisfies
`start ≤ pos ≤ len`. -/
theorem start_pos_invariant_witness :
    wSeqEnd.start ≤ wSeqEnd.pos ∧ wSeqEnd.pos ≤ (wSeqEnd.input.length : Int) :=
  start_pos_invariant [.next, .emit, .nextBackup, .accept [98], .ignore] 2
    [97, 98] 0 wSeqEnd rfl

/-- Only the three bytes `E2 88 8E` — the UTF-8 encoding of the sentinel
itself — decode to the sentinel code point. -/
lemma decode_eof_bytes (s : List Nat) (h : (decodeRune s).1 = EOF) :
    ∃ rest, s = 226 :: 136 :: 142 :: rest ∧ (decodeRune s).2 = 3 := by
  rcases s with _ | ⟨b0, rest⟩
  · exact absurd h (by decide)
  rcases rest with _ | ⟨b1, rest1⟩
  · simp only [decodeRune] at h
    split_ifs at h <;>
      first
        | exact absurd h (by decide)
        | (simp only [EOF] at h; omega)
  rcases rest1 with _ | ⟨b2, rest2⟩
  · simp only [decodeRune] at h
    split_ifs at h <;>
      first
        | exact absurd h (by decide)
        | (simp only [EOF] at h; omega)
  rcases rest2 with _ | ⟨b3, rest3⟩
  · simp only [decodeRune] at h
    split_ifs at h <;>
      try first
        | exact absurd h (by decide)
        | (simp only [EOF] at h; omega)
    -- remaining: the valid generic three-byte decode equal to the sentinel
    simp only [EOF] at h
    have hb0 : b0 = 226 := by omega
    have hb1 : b1 = 136 := by omega
    have hb2 : b2 = 142 := by omega
    subst hb0 hb1 hb2
    exact ⟨[], rfl, rfl⟩
  · simp only [decodeRune] at h
    split_ifs at h <;>
      try first
        | exact absurd h (by decide)
        | (simp only [EOF] at h; omega)
    simp only [EOF] at h
    have hb0 : b0 = 226 := by omega
    have hb1 : b1 = 136 := by omega
    have hb2 : b2 = 142 := by omega
    subst hb0 hb1 hb2
    exact ⟨b3 :: rest3, rfl, rfl⟩

/-- C9 (amended): a `Next` performed strictly before the end of input
returns the rune decoded from the input bytes; that rune equals the
end-of-input sentinel only when the input itself contains the sentinel's
own UTF-8 encoding `E2 88 8E` at the current position — for inputs not
containing `'∎'`, the sentinel is returned only at end of input. -/
theorem sentinel_only_from_own_encoding (p : Parser) (r : Nat) (p1 : Parser)
    (h0 : 0 ≤ p.pos) (hlt : p.pos < (p.input.length : Int))
    (hnext : Next p = some (r, p1)) (hr : r = EOF) :
    ∃ rest, p.input.drop p.pos.toNat = 226 :: 136 :: 142 :: rest := by
  have hne : ¬ ((p.input.length : Int) ≤ p.pos) := not_le.mpr hlt
  have hslice : sliceFrom p.input p.pos = some (p.input.drop p.pos.toNat) := by
    unfold sliceFrom
    rw [if_pos ⟨h0, le_of_lt hlt⟩]
  simp only [Next, hne, if_false, hslice] at hnext
  by_cases h10 : (decodeRune (p.input.drop p.pos.toNat)).1 = 10 <;>
    simp only [h10, if_true, if_false, reduceIte, Option.some.injEq,
      Prod.mk.injEq] at hnext
  · exact absurd (hnext.1.trans hr) (by decide)
  · obtain ⟨rest, hshape, _⟩ := decode_eof_bytes _ (hnext.1.trans hr)
    exact ⟨rest, hshape⟩

/-- Witness for `sentinel_only_from_own_encoding`: the input `"∎"`
(bytes `E2 88 8E`) read from position `0`. -/
theorem sentinel_only_from_own_encoding_witness :
    ∃ rest, (New [226, 136, 142] 0).input.drop (New [226, 136, 142] 0).pos.toNat =
      226 :: 136 :: 142 :: rest :=
  sentinel_only_from_own_encoding (New [226, 136, 142] 0) EOF
    { New [226, 136, 142] 0 with pos := 3, width := 3, linepos := 1 }
    (by decide) (by decide) rfl rfl

end GoParser
